import Mathlib

/-!
Verification of the glslang macro token stream (PpTokens.cpp) and of the
`TIntermediate` helper state (localintermediate.h) of this repository.

The token stream serializes preprocessor tokens into a byte buffer
(`data`) with a replay cursor (`current`).  Machine bytes are modelled as
`Nat` values below 256; the C `int` subtoken channel (a byte or the
end-of-input sentinel) is modelled as `Int`.
-/

/-- Modelled from the spec: the end-of-input sentinel returned by the
subtoken reader.  Its definition (`EndOfInput = -1`) lives in a header
that is not part of the shown sources. -/
def EndOfInput : Int := -1

/-- Modelled from the spec: the maximum backing-name length used by
`getToken`'s truncation check.  The constant is declared in `PpTokens.h`,
which is not part of the shown sources; the spec only says names are
"truncated at a maximum length". -/
def MaxTokenLength : Nat := 1024

/-- Modelled from the spec: the token-paste operator atom produced when a
`#` is immediately followed by a second `#`.  The atom codes live in
`PpTokens.h`, which is not part of the shown sources; all multi-character
atoms are byte values above 127. -/
def PpAtomPaste : Int := 151

/-- Modelled from the spec: atom code of an integer literal token. -/
def PpAtomConstInt : Int := 152

/-- Modelled from the spec: atom code of an unsigned literal token. -/
def PpAtomConstUint : Int := 153

/-- Modelled from the spec: atom code of a 64-bit literal token. -/
def PpAtomConstInt64 : Int := 154

/-- Modelled from the spec: atom code of an unsigned 64-bit literal token. -/
def PpAtomConstUint64 : Int := 155

/-- Modelled from the spec: atom code of a float literal token. -/
def PpAtomConstFloat : Int := 156

/-- Modelled from the spec: atom code of a double literal token. -/
def PpAtomConstDouble : Int := 157

/-- Modelled from the spec: atom code of a half-float literal token. -/
def PpAtomConstFloat16 : Int := 158

/-- Modelled from the spec: atom code of a string literal token. -/
def PpAtomConstString : Int := 159

/-- Modelled from the spec: atom code of an identifier token. -/
def PpAtomIdentifier : Int := 160

/-- When recording (and playing back) should the backing name string be
saved (restored)?  The `AMD_EXTENSIONS` cases are compiled out. -/
def SaveName (atom : Int) : Bool :=
  atom = PpAtomIdentifier || atom = PpAtomConstString ||
  atom = PpAtomConstInt || atom = PpAtomConstUint ||
  atom = PpAtomConstInt64 || atom = PpAtomConstUint64 ||
  atom = PpAtomConstFloat || atom = PpAtomConstDouble ||
  atom = PpAtomConstFloat16

/-- When recording (and playing back) should the numeric value be saved
(restored)? -/
def SaveValue (atom : Int) : Bool :=
  atom = PpAtomConstInt || atom = PpAtomConstUint ||
  atom = PpAtomConstInt64 || atom = PpAtomConstUint64 ||
  atom = PpAtomConstFloat || atom = PpAtomConstDouble ||
  atom = PpAtomConstFloat16

/-- Modelled from the spec: the fields of `TPpToken` that the token
stream records — the NUL-terminated backing name (as its byte contents)
and the 64-bit numeric payload (as its bit pattern).  The struct itself
is declared in `PpContext.h`, which is not part of the shown sources. -/
structure TPpToken where
  name : List Nat
  i64val : Nat
deriving DecidableEq, Repr

/-- A recorded macro token stream: an append-only byte buffer plus a
replay cursor. -/
structure TokenStream where
  data : List Nat
  current : Nat
deriving DecidableEq, Repr

/-- push onto back of stream (`putSubtoken`); the `char` to
`unsigned char` conversion reduces the value modulo 256. -/
def TokenStream.putSubtoken (s : TokenStream) (subtoken : Int) : TokenStream :=
  { s with data := s.data ++ [(subtoken % 256).toNat] }

/-- get the next token in stream (`getSubtoken`). -/
def TokenStream.getSubtoken (s : TokenStream) : Int × TokenStream :=
  if h : s.current < s.data.length then
    ((s.data.get ⟨s.current, h⟩ : Int), { s with current := s.current + 1 })
  else
    (EndOfInput, s)

/-- back up one position in the stream (`ungetSubtoken`). -/
def TokenStream.ungetSubtoken (s : TokenStream) : TokenStream :=
  if 0 < s.current then { s with current := s.current - 1 } else s

/-- Modelled from the spec: `reset()` rewinds the replay cursor to the
start of the buffer ("resettable read cursor"); it is declared in
`PpContext.h`, which is not part of the shown sources. -/
def TokenStream.reset (s : TokenStream) : TokenStream :=
  { s with current := 0 }

/-- The eight bytes of a 64-bit value, low byte first (the raw bytes of
`i64val` written by `putToken`). -/
def natToBytes : Nat → Nat → List Nat
  | 0, _ => []
  | n + 1, v => v % 256 :: natToBytes n (v / 256)

/-- Reassemble a byte list, low byte first, into a numeric value. -/
def bytesToNat : List Nat → Nat
  | [] => 0
  | b :: rest => b + 256 * bytesToNat rest

/-- Add a complete token (including backing string) to the end of a list
for later playback (`putToken`): the atom, then — if the atom class saves
a name — the bytes of the backing string up to its first NUL followed by
a NUL, then — if the atom class saves a value — the eight raw bytes of
the numeric payload. -/
def TokenStream.putToken (s : TokenStream) (atom : Int) (ppToken : TPpToken) : TokenStream :=
  -- save the atom
  let s1 := s.putSubtoken atom
  -- save the backing name string
  let s2 :=
    if SaveName atom then
      (((ppToken.name.takeWhile (fun b => b ≠ 0)).foldl
          (fun (t : TokenStream) (b : Nat) => t.putSubtoken (b : Int)) s1).putSubtoken 0)
    else s1
  -- save the numeric value
  if SaveValue atom then
    (natToBytes 8 ppToken.i64val).foldl
      (fun (t : TokenStream) (b : Nat) => t.putSubtoken (b : Int)) s2
  else s2

/-- The name-reading loop of `getToken`: `ch` is the subtoken already in
hand, `acc` the characters stored so far.  Returns the stored name bytes,
the number of "token too long" diagnostics reported (0 or 1), and the
stream.  The case where the buffer is exhausted mid-name is folded in:
there the next subtoken read would return `EndOfInput` and the loop would
then exit with the stream unchanged. -/
def TokenStream.readNameLoop (s : TokenStream) (ch : Int) (acc : List Nat) :
    List Nat × Nat × TokenStream :=
  if ch ≠ 0 ∧ ch ≠ EndOfInput then
    if acc.length < MaxTokenLength then
      if h : s.current < s.data.length then
        TokenStream.readNameLoop { s with current := s.current + 1 }
          ((s.data.get ⟨s.current, h⟩ : Nat) : Int) (acc ++ [ch.toNat])
      else
        (acc ++ [ch.toNat], 0, s)
    else
      -- parseContext.error(loc, "token too long", ...), then break
      (acc, 1, s)
  else
    (acc, 0, s)
termination_by s.data.length - s.current
decreasing_by omega

/-- Read a fixed number of raw value bytes; each subtoken is stored
through a `char`, so `EndOfInput` would be stored as byte 255. -/
def TokenStream.readValueBytes : Nat → TokenStream → List Nat × TokenStream
  | 0, s => ([], s)
  | n + 1, s =>
    let r := s.getSubtoken
    let rest := TokenStream.readValueBytes n r.2
    ((r.1 % 256).toNat :: rest.1, rest.2)

/-- The result of `getToken`: the atom returned, the reconstructed name
bytes and numeric value of the output token, the number of error
diagnostics reported, and the stream afterwards. -/
structure GetResult where
  atom : Int
  name : List Nat
  value : Nat
  errors : Nat
  stream : TokenStream
deriving DecidableEq, Repr

/-- Read the next token from a token stream (`getToken`): reads the atom
(or reports `EndOfInput`), reconstructs the backing name when the atom
class saves one (truncating with one error diagnostic when too long),
re-interprets a `#` immediately followed by a second `#` as `PpAtomPaste`
(pushing the lookahead subtoken back otherwise), and reconstructs the
numeric value when the atom class saves one.  Byte 35 is `'#'`. -/
def TokenStream.getToken (s : TokenStream) : GetResult :=
  -- get the atom
  let a := s.getSubtoken
  let atom := a.1
  if atom = EndOfInput then
    ⟨atom, [], 0, 0, a.2⟩
  else
    -- ppToken->clear(); get the backing name string
    let nr :=
      if SaveName atom then
        let c := a.2.getSubtoken
        TokenStream.readNameLoop c.2 c.1 []
      else ([], 0, a.2)
    let s2 := nr.2.2
    -- Check for ##, unless the current # is the last character
    let pr :=
      if atom = 35 then
        if s2.current < s2.data.length then
          let p := s2.getSubtoken
          if p.1 = 35 then (PpAtomPaste, p.2)
          else (atom, p.2.ungetSubtoken)
        else (atom, s2)
      else (atom, s2)
    -- get the numeric value
    if SaveValue pr.1 then
      let vb := TokenStream.readValueBytes 8 pr.2
      ⟨pr.1, nr.1, bytesToNat vb.1, nr.2.1, vb.2⟩
    else
      ⟨pr.1, nr.1, 0, nr.2.1, pr.2⟩

/-- The whitespace-skipping loop shared by both peek predicates:
`do { subtoken = getSubtoken(); } while (subtoken == ' ')`.  Byte 32 is a
space. -/
def TokenStream.skipSpaces (s : TokenStream) : Int × TokenStream :=
  if h : s.current < s.data.length then
    let b := s.data.get ⟨s.current, h⟩
    let s' : TokenStream := { s with current := s.current + 1 }
    if (b : Int) = 32 then s'.skipSpaces else ((b : Int), s')
  else
    (EndOfInput, s)
termination_by s.data.length - s.current
decreasing_by omega

/-- The second loop of `peekTokenizedPasting`: scan forward and report
whether any non-space subtoken remains before the end of input. -/
def TokenStream.moreTokensLoop (s : TokenStream) : Bool × TokenStream :=
  if h : s.current < s.data.length then
    let b := s.data.get ⟨s.current, h⟩
    let s' : TokenStream := { s with current := s.current + 1 }
    if (b : Int) = 32 then s'.moreTokensLoop else (true, s')
  else
    (false, s)
termination_by s.data.length - s.current
decreasing_by omega

/-- The `peekTokenizedPasting(lastTokenPastes)`: true if, skipping spaces,
the next subtoken is the paste operator, or if the macro as a whole
pastes at its end and no non-space token remains.  The cursor is saved
and restored around both scans. -/
def TokenStream.peekTokenizedPasting (s : TokenStream) (lastTokenPastes : Bool) :
    Bool × TokenStream :=
  -- 1. preceding ##?
  let savePos := s.current
  let w := s.skipSpaces
  let s1 : TokenStream := { w.2 with current := savePos }
  if w.1 = PpAtomPaste then (true, s1)
  else if ! lastTokenPastes then (false, s1)
  else
    -- 2. are we at the last non-whitespace token?
    let savePos2 := s1.current
    let m := s1.moreTokensLoop
    (! m.1, { m.2 with current := savePos2 })

/-- The `peekUntokenizedPasting()`: see if the next non-white-space
subtokens are two consecutive `#`; the cursor is restored before
returning on every path. -/
def TokenStream.peekUntokenizedPasting (s : TokenStream) : Bool × TokenStream :=
  -- don't return early, have to restore this
  let savePos := s.current
  -- skip white-space
  let w := s.skipSpaces
  -- check for ##
  let pr :=
    if w.1 = 35 then
      let p := w.2.getSubtoken
      (decide (p.1 = 35), p.2)
    else (false, w.2)
  (pr.1, { pr.2 with current := savePos })

/-! ## Ranges and swizzle selectors (localintermediate.h) -/

/-- A generic 1-D range (`TRange`): the closed interval `[start, last]`. -/
structure TRange where
  start : Int
  last : Int
deriving DecidableEq, Repr

/-- The `TRange::overlap`: the closed intervals intersect. -/
def TRange.overlap (a rhs : TRange) : Bool :=
  a.last ≥ rhs.start && a.start ≤ rhs.last

/-- Modelled from the spec: the basic-type tag carried by an `TIoRange`
("tagged with a basic type").  The `TBasicType` enumeration is declared
in a header that is not part of the shown sources; the overlap test never
inspects it, so it is modelled as an opaque numeric tag. -/
def TBasicType : Type := Nat
deriving instance DecidableEq, Repr for TBasicType

/-- An IO range (`TIoRange`): a location range, a component range, a
basic-type tag, and an index value. -/
structure TIoRange where
  location : TRange
  component : TRange
  basicType : TBasicType
  index : Int
deriving DecidableEq, Repr

/-- The `TIoRange::overlap`: locations don't alias unless all other
dimensions of their range overlap. -/
def TIoRange.overlap (a rhs : TIoRange) : Bool :=
  a.location.overlap rhs.location && a.component.overlap rhs.component &&
    a.index == rhs.index

/-- The `MaxSwizzleSelectors`. -/
def MaxSwizzleSelectors : Nat := 4

/-- The `TSwizzleSelectors`: a fixed four-slot selector array plus a fill
count.  The C++ fields are a `selectorType components[4]` array of
indeterminate initial contents and an `int size_`; a slot is modelled as
`Option` so that never-written slots are observable, and the count as
`Nat` (it is non-negative in every defined-behavior use). -/
structure TSwizzleSelectors (selectorType : Type) where
  size_ : Nat
  components : Fin MaxSwizzleSelectors → Option selectorType

/-- The freshly constructed `TSwizzleSelectors()`: zero size, no slot
written yet. -/
def TSwizzleSelectors.init (selectorType : Type) : TSwizzleSelectors selectorType :=
  ⟨0, fun _ => none⟩

/-- The `TSwizzleSelectors::push_back`: store into the next slot and bump the
count, but only while the count is below `MaxSwizzleSelectors`. -/
def TSwizzleSelectors.push_back {selectorType : Type}
    (s : TSwizzleSelectors selectorType) (comp : selectorType) :
    TSwizzleSelectors selectorType :=
  if h : s.size_ < MaxSwizzleSelectors then
    { size_ := s.size_ + 1,
      components := fun i => if i = (⟨s.size_, h⟩ : Fin MaxSwizzleSelectors)
        then some comp else s.components i }
  else s

/-- The `TSwizzleSelectors::size`. -/
def TSwizzleSelectors.size {selectorType : Type}
    (s : TSwizzleSelectors selectorType) : Nat := s.size_

/-! ## TIntermediate state (localintermediate.h) -/

/-- Modelled from the spec: `TQualifier::layoutNotSet`, the "unset"
sentinel of the per-stage layout fields such as `invocations`.  Its
definition lives in a header that is not part of the shown sources. -/
def layoutNotSet : Int := -1

/-- Modelled from the spec: `TQualifier::layoutXfbStrideEnd`, the
"unset" sentinel stored in a fresh `TXfbBuffer`'s stride.  Its definition
lives in a header that is not part of the shown sources. -/
def layoutXfbStrideEnd : Nat := 16383

/-- Things that need to be tracked per xfb buffer (`TXfbBuffer`). -/
structure TXfbBuffer where
  ranges : List TRange
  stride : Nat
  implicitStride : Nat
  containsDouble : Bool
deriving DecidableEq, Repr

/-- The default-constructed `TXfbBuffer()`. -/
def TXfbBuffer.init : TXfbBuffer :=
  ⟨[], layoutXfbStrideEnd, 0, false⟩

/-- Modelled from the spec: the `SpvVersion` value consumed by `setSpv`.
The struct is declared in `Versions.h`, which is not part of the shown
sources; `setSpv` reads its `vulkan` and `openGl` fields. -/
structure SpvVersion where
  spv : Int
  vulkanGlsl : Int
  vulkan : Int
  openGl : Int
deriving DecidableEq, Repr

/-- The default `SpvVersion()`: everything zero. -/
def SpvVersion.init : SpvVersion := ⟨0, 0, 0, 0⟩

/-- The `TProcesses::addProcess`: push a fresh process string. -/
def addProcess (processes : List String) (process : String) : List String :=
  processes ++ [process]

/-- The `TProcesses::addArgument(int)`: append a textual argument to the
most recently pushed process string. -/
def addArgumentInt (processes : List String) (arg : Int) : List String :=
  processes.dropLast ++ [processes.getLastD "" ++ " " ++ toString arg]

/-- The `TProcesses::addIfNonZero`. -/
def addIfNonZero (processes : List String) (process : String) (value : Int) :
    List String :=
  if value ≠ 0 then addArgumentInt (addProcess processes process) value
  else processes

/-- Modelled from the spec: `TIntermediate::getResourceName`, the name
used when logging a binding shift for a resource type; its definition is
not part of the shown sources.  Resource types (`TResourceType`) are
modelled as numeric tags 0..5; out-of-range tags have no name (NULL). -/
def getResourceName (res : Nat) : Option String :=
  if res = 0 then some "shift-sampler-binding"
  else if res = 1 then some "shift-texture-binding"
  else if res = 2 then some "shift-image-binding"
  else if res = 3 then some "shift-UBO-binding"
  else if res = 4 then some "shift-ssbo-binding"
  else if res = 5 then some "shift-uav-binding"
  else none

/-- The subset of `TIntermediate` state read and written by the
operations under verification: the set-once layout fields, the xfb buffer
vector (as a map from buffer index), the global and per-descriptor-set
binding shifts (`shiftBindingForSet`'s `std::map` as a partial map from
set to shift), the SPIR-V version record, and the process log. -/
structure TIntermediate where
  invocations : Int
  localSize : Fin 3 → Int
  xfbBuffers : Nat → TXfbBuffer
  shiftBinding : Nat → Nat
  shiftBindingForSet : Nat → Nat → Option Nat
  spvVersion : SpvVersion
  processes : List String

/-- The `TIntermediate` constructor's initialization of the state above:
`invocations(TQualifier::layoutNotSet)`, `localSize[dim] = 1`,
`xfbBuffers.resize(...)` filling default-constructed buffers,
`shiftBinding.fill(0)`, empty per-set shift maps, and an empty process
log. -/
def TIntermediate.init : TIntermediate :=
  { invocations := layoutNotSet,
    localSize := fun _ => 1,
    xfbBuffers := fun _ => TXfbBuffer.init,
    shiftBinding := fun _ => 0,
    shiftBindingForSet := fun _ _ => none,
    spvVersion := SpvVersion.init,
    processes := [] }

/-- The `TIntermediate::setInvocations`. -/
def TIntermediate.setInvocations (t : TIntermediate) (i : Int) :
    Bool × TIntermediate :=
  if t.invocations ≠ layoutNotSet then (decide (t.invocations = i), t)
  else (true, { t with invocations := i })

/-- The `TIntermediate::setXfbBufferStride`. -/
def TIntermediate.setXfbBufferStride (t : TIntermediate) (buffer : Nat)
    (stride : Nat) : Bool × TIntermediate :=
  if (t.xfbBuffers buffer).stride ≠ layoutXfbStrideEnd then
    (decide ((t.xfbBuffers buffer).stride = stride), t)
  else
    (true, { t with xfbBuffers := fun b =>
      if b = buffer then { t.xfbBuffers buffer with stride := stride }
      else t.xfbBuffers b })

/-- The `TIntermediate::getXfbStride`. -/
def TIntermediate.getXfbStride (t : TIntermediate) (buffer : Nat) : Nat :=
  (t.xfbBuffers buffer).stride

/-- The `TIntermediate::setLocalSize`. -/
def TIntermediate.setLocalSize (t : TIntermediate) (dim : Fin 3) (size : Int) :
    Bool × TIntermediate :=
  if t.localSize dim > 1 then (decide (size = t.localSize dim), t)
  else (true, { t with localSize := fun d =>
    if d = dim then size else t.localSize d })

/-- The `TIntermediate::getLocalSize`: the stored `int` is returned as an
`unsigned int`, i.e. reduced modulo 2^32. -/
def TIntermediate.getLocalSize (t : TIntermediate) (dim : Fin 3) : Nat :=
  ((t.localSize dim) % (2 ^ 32)).toNat

/-- The `TIntermediate::getInvocations`. -/
def TIntermediate.getInvocations (t : TIntermediate) : Int := t.invocations

/-- The `TIntermediate::setSpv`: record the SPIR-V version and log the
client and target-environment processes. -/
def TIntermediate.setSpv (t : TIntermediate) (s : SpvVersion) : TIntermediate :=
  let t0 := { t with spvVersion := s }
  -- client processes
  let t1 := if s.vulkan > 0
    then { t0 with processes := addProcess t0.processes "client vulkan100" }
    else t0
  let t2 := if s.openGl > 0
    then { t1 with processes := addProcess t1.processes "client opengl100" }
    else t1
  -- target-environment processes
  let t3 := if s.vulkan > 0
    then { t2 with processes := addProcess t2.processes "target-env vulkan1.0" }
    else if s.vulkan > 0
    then { t2 with processes := addProcess t2.processes "target-env vulkanUnknown" }
    else t2
  if s.openGl > 0
    then { t3 with processes := addProcess t3.processes "target-env opengl" }
    else t3

/-- The `TIntermediate::setShiftBinding`: store the global shift for the
resource type and log it when nonzero. -/
def TIntermediate.setShiftBinding (t : TIntermediate) (res : Nat)
    (shift : Nat) : TIntermediate :=
  let t1 := { t with shiftBinding := fun r =>
    if r = res then shift else t.shiftBinding r }
  match getResourceName res with
  | some name => { t1 with processes := addIfNonZero t1.processes name shift }
  | none => t1

/-- The `TIntermediate::getShiftBinding`. -/
def TIntermediate.getShiftBinding (t : TIntermediate) (res : Nat) : Nat :=
  t.shiftBinding res

/-- The `TIntermediate::setShiftBindingForSet`: ignore a zero shift (no-op),
otherwise store the shift under `(res, set)` and log it. -/
def TIntermediate.setShiftBindingForSet (t : TIntermediate) (res : Nat)
    (shift : Nat) (set : Nat) : TIntermediate :=
  if shift = 0 then t  -- ignore if there's no shift: it's a no-op
  else
    let t1 := { t with shiftBindingForSet := fun r s =>
      if r = res ∧ s = set then some shift else t.shiftBindingForSet r s }
    match getResourceName res with
    | some name =>
      { t1 with processes :=
          addArgumentInt (addArgumentInt (addProcess t1.processes name) shift) set }
    | none => t1

/-- The `TIntermediate::getShiftBindingForSet`: the stored shift for
`(res, set)`, or -1 when the map has no entry for `set`. -/
def TIntermediate.getShiftBindingForSet (t : TIntermediate) (res : Nat)
    (set : Nat) : Int :=
  match t.shiftBindingForSet res set with
  | none => -1
  | some shift => shift

/-! ## Stream-manipulation lemmas -/

theorem getSubtoken_of_drop {D : List Nat} {n b : Nat} {bs : List Nat}
    (h : D.drop n = b :: bs) :
    TokenStream.getSubtoken ⟨D, n⟩ = ((b : Int), ⟨D, n + 1⟩) ∧ D.drop (n + 1) = bs := by
  have hlt : n < D.length := by
    by_contra hle
    rw [List.drop_eq_nil_of_le (by omega)] at h
    exact List.noConfusion h
  have h2 := List.drop_eq_getElem_cons hlt
  rw [h] at h2
  injection h2 with h3 h4
  refine ⟨?_, h4.symm⟩
  unfold TokenStream.getSubtoken
  rw [dif_pos hlt]
  simp [List.get_eq_getElem, ← h3]

theorem getSubtoken_of_drop_nil {D : List Nat} {n : Nat} (h : D.drop n = []) :
    TokenStream.getSubtoken ⟨D, n⟩ = (EndOfInput, ⟨D, n⟩) := by
  have hle : D.length ≤ n := List.drop_eq_nil_iff.mp h
  have h' : ¬((⟨D, n⟩ : TokenStream).current < (⟨D, n⟩ : TokenStream).data.length) := by
    show ¬(n < D.length)
    omega
  unfold TokenStream.getSubtoken
  rw [dif_neg h']

theorem drop_append_of_drop {D : List Nat} {n : Nat} {xs ys : List Nat}
    (h : D.drop n = xs ++ ys) : D.drop (n + xs.length) = ys := by
  rw [← List.drop_drop, h, List.drop_left]

theorem getSubtoken_data (s : TokenStream) : (s.getSubtoken).2.data = s.data := by
  unfold TokenStream.getSubtoken
  split <;> rfl

theorem ungetSubtoken_data (s : TokenStream) : (s.ungetSubtoken).data = s.data := by
  unfold TokenStream.ungetSubtoken
  split <;> rfl

theorem skipSpaces_data (s : TokenStream) : (s.skipSpaces).2.data = s.data := by
  induction s using TokenStream.skipSpaces.induct with
  | case1 x h b s' hb ih =>
    rw [TokenStream.skipSpaces]
    simp only [dif_pos h, List.get_eq_getElem]
    rw [if_pos (show ((x.data[x.current] : Nat) : Int) = 32 from hb)]
    exact ih
  | case2 x h b hb =>
    rw [TokenStream.skipSpaces]
    simp only [dif_pos h, List.get_eq_getElem]
    rw [if_neg (show ¬((x.data[x.current] : Nat) : Int) = 32 from hb)]
  | case3 x h =>
    rw [TokenStream.skipSpaces]
    rw [dif_neg h]

theorem moreTokensLoop_data (s : TokenStream) : (s.moreTokensLoop).2.data = s.data := by
  induction s using TokenStream.moreTokensLoop.induct with
  | case1 x h b s' hb ih =>
    rw [TokenStream.moreTokensLoop]
    simp only [dif_pos h, List.get_eq_getElem]
    rw [if_pos (show ((x.data[x.current] : Nat) : Int) = 32 from hb)]
    exact ih
  | case2 x h b hb =>
    rw [TokenStream.moreTokensLoop]
    simp only [dif_pos h, List.get_eq_getElem]
    rw [if_neg (show ¬((x.data[x.current] : Nat) : Int) = 32 from hb)]
  | case3 x h =>
    rw [TokenStream.moreTokensLoop]
    rw [dif_neg h]

theorem readNameLoop_data (s : TokenStream) (ch : Int) (acc : List Nat) :
    (TokenStream.readNameLoop s ch acc).2.2.data = s.data := by
  induction s, ch, acc using TokenStream.readNameLoop.induct with
  | case1 s ch acc hch hlen h ih =>
    rw [TokenStream.readNameLoop]
    rw [if_pos hch, if_pos hlen, dif_pos h]
    exact ih
  | case2 s ch acc hch hlen h =>
    rw [TokenStream.readNameLoop]
    rw [if_pos hch, if_pos hlen, dif_neg h]
  | case3 s ch acc hch hlen =>
    rw [TokenStream.readNameLoop]
    rw [if_pos hch, if_neg hlen]
  | case4 s ch acc hch =>
    rw [TokenStream.readNameLoop]
    rw [if_neg hch]

theorem readValueBytes_data (k : Nat) (s : TokenStream) :
    (TokenStream.readValueBytes k s).2.data = s.data := by
  induction k generalizing s with
  | zero => rfl
  | succ n ih =>
    show (TokenStream.readValueBytes n (s.getSubtoken).2).2.data = s.data
    rw [ih, getSubtoken_data]

theorem getToken_data (s : TokenStream) : (s.getToken).stream.data = s.data := by
  unfold TokenStream.getToken
  dsimp only
  split
  · exact getSubtoken_data s
  · repeat' split
    all_goals simp only [readValueBytes_data, readNameLoop_data, getSubtoken_data,
      ungetSubtoken_data]

/-- C6: for every token-stream state and every boolean argument, both
peek predicates return with the read cursor equal to its value before
the call and the buffer unchanged — they never consume input, on any
path. -/
theorem c6_peek_restores_cursor (s : TokenStream) (lastTokenPastes : Bool) :
    ((s.peekTokenizedPasting lastTokenPastes).2.current = s.current ∧
     (s.peekTokenizedPasting lastTokenPastes).2.data = s.data) ∧
    ((s.peekUntokenizedPasting).2.current = s.current ∧
     (s.peekUntokenizedPasting).2.data = s.data) := by
  refine ⟨⟨?_, ?_⟩, ?_, ?_⟩
  · unfold TokenStream.peekTokenizedPasting
    dsimp only
    split
    · rfl
    · split <;> rfl
  · unfold TokenStream.peekTokenizedPasting
    dsimp only
    split
    · exact skipSpaces_data s
    · split
      · exact skipSpaces_data s
      · simp only [moreTokensLoop_data]
        exact skipSpaces_data s
  · unfold TokenStream.peekUntokenizedPasting
    dsimp only
  · unfold TokenStream.peekUntokenizedPasting
    dsimp only
    split
    · simp only [getSubtoken_data]
      exact skipSpaces_data s
    · exact skipSpaces_data s

/-- C2: `TIoRange::overlap` holds exactly when the location ranges
overlap, the component ranges overlap (a closed range `[start, last]`
overlapping a second one exactly when `last >= rhs.start` and
`start <= rhs.last`), and the index values are equal; in particular
locations `[0,1]` and `[1,2]` with an identical component range and
equal index collide, while the same locations with disjoint component
ranges do not. -/
theorem c2_iorange_overlap :
    (∀ a b : TIoRange, TIoRange.overlap a b = true ↔
      ((a.location.last ≥ b.location.start ∧ a.location.start ≤ b.location.last) ∧
       (a.component.last ≥ b.component.start ∧ a.component.start ≤ b.component.last) ∧
       a.index = b.index)) ∧
    TIoRange.overlap ⟨⟨0, 1⟩, ⟨0, 3⟩, (0 : Nat), 5⟩ ⟨⟨1, 2⟩, ⟨0, 3⟩, (0 : Nat), 5⟩ = true ∧
    TIoRange.overlap ⟨⟨0, 1⟩, ⟨0, 1⟩, (0 : Nat), 5⟩ ⟨⟨1, 2⟩, ⟨2, 3⟩, (0 : Nat), 5⟩ = false := by
  refine ⟨?_, by decide, by decide⟩
  intro a b
  simp [TIoRange.overlap, TRange.overlap, and_assoc]

/-- C8: the `else if (spvVersion.vulkan > 0)` branch of `setSpv` is
unreachable — for every prior state and every `SpvVersion` argument,
`setSpv` leaves the number of "target-env vulkanUnknown" entries of the
process log unchanged, so it never appends that process string. -/
theorem c8_setSpv_dead_branch (t : TIntermediate) (s : SpvVersion) :
    ((t.setSpv s).processes.count "target-env vulkanUnknown") =
      t.processes.count "target-env vulkanUnknown" := by
  unfold TIntermediate.setSpv
  dsimp only
  split_ifs <;>
    simp [addProcess, List.count_append, List.count_singleton]

/-- Helper for C9: `push_back` never moves the fill count above
`MaxSwizzleSelectors`. -/
theorem push_back_size_le {selectorType : Type}
    (s : TSwizzleSelectors selectorType) (c : selectorType)
    (h : s.size_ ≤ MaxSwizzleSelectors) :
    (s.push_back c).size_ ≤ MaxSwizzleSelectors := by
  unfold TSwizzleSelectors.push_back
  split
  · next hlt => exact hlt
  · exact h

/-- Helper for C9: the fold invariant over any sequence of pushes. -/
theorem foldl_push_back_size_le {selectorType : Type}
    (cs : List selectorType) (s : TSwizzleSelectors selectorType)
    (h : s.size_ ≤ MaxSwizzleSelectors) :
    (cs.foldl TSwizzleSelectors.push_back s).size_ ≤ MaxSwizzleSelectors := by
  induction cs generalizing s with
  | nil => exact h
  | cons c cs ih => exact ih _ (push_back_size_le s c h)

/-- C9: starting from a freshly constructed `TSwizzleSelectors`, any
sequence of `push_back` calls keeps `size()` at or below
`MaxSwizzleSelectors` (4), and a `push_back` performed when the size is
already 4 leaves the selector object — size and stored components —
entirely unchanged. -/
theorem c9_swizzle_push_bound :
    (∀ (selectorType : Type) (cs : List selectorType),
      (cs.foldl TSwizzleSelectors.push_back
        (TSwizzleSelectors.init selectorType)).size ≤ MaxSwizzleSelectors) ∧
    (∀ (selectorType : Type) (s : TSwizzleSelectors selectorType)
      (c : selectorType), s.size = MaxSwizzleSelectors → s.push_back c = s) := by
  constructor
  · intro selectorType cs
    exact foldl_push_back_size_le cs _ (Nat.zero_le _)
  · intro selectorType s c h
    unfold TSwizzleSelectors.push_back
    rw [dif_neg]
    rw [TSwizzleSelectors.size] at h
    omega

/-- Witness for C9 at a concrete full selector set. -/
theorem c9_swizzle_push_bound_witness :
    TSwizzleSelectors.push_back
      (⟨4, fun _ => none⟩ : TSwizzleSelectors Int) 7 = ⟨4, fun _ => none⟩ :=
  c9_swizzle_push_bound.2 Int ⟨4, fun _ => none⟩ 7 rfl

/-- C3 (amended): provided the first supplied value is not the "unset"
sentinel (`layoutNotSet` for `setInvocations`, `layoutXfbStrideEnd` for
`setXfbBufferStride`), the first call stores the value and returns true,
and every subsequent call returns true exactly when it supplies the
identical value, leaving the stored value (indeed the whole state)
unchanged; concretely, `setInvocations 4` twice returns true both times,
while `setInvocations 4` then `setInvocations 8` returns false on the
second call and the stored value stays 4. -/
theorem c3_set_once :
    (∀ (t : TIntermediate) (i : Int),
      t.invocations = layoutNotSet → i ≠ layoutNotSet →
      (t.setInvocations i).1 = true ∧
      (t.setInvocations i).2.invocations = i ∧
      (∀ j : Int,
        (((t.setInvocations i).2.setInvocations j).1 = true ↔ j = i) ∧
        ((t.setInvocations i).2.setInvocations j).2 = (t.setInvocations i).2)) ∧
    (∀ (t : TIntermediate) (buffer stride : Nat),
      (t.xfbBuffers buffer).stride = layoutXfbStrideEnd →
      stride ≠ layoutXfbStrideEnd →
      (t.setXfbBufferStride buffer stride).1 = true ∧
      ((t.setXfbBufferStride buffer stride).2.xfbBuffers buffer).stride = stride ∧
      (∀ j : Nat,
        ((((t.setXfbBufferStride buffer stride).2).setXfbBufferStride buffer j).1 = true
            ↔ j = stride) ∧
        (((t.setXfbBufferStride buffer stride).2).setXfbBufferStride buffer j).2 =
          (t.setXfbBufferStride buffer stride).2)) ∧
    ((TIntermediate.init.setInvocations 4).1 = true ∧
     ((TIntermediate.init.setInvocations 4).2.setInvocations 4).1 = true ∧
     ((TIntermediate.init.setInvocations 4).2.setInvocations 8).1 = false ∧
     (((TIntermediate.init.setInvocations 4).2.setInvocations 8).2).invocations = 4) := by
  refine ⟨?_, ?_, rfl, rfl, rfl, rfl⟩
  · intro t i hset hi
    have h1 : t.setInvocations i = (true, { t with invocations := i }) := by
      unfold TIntermediate.setInvocations
      rw [if_neg (by simp [hset])]
    refine ⟨by rw [h1], by rw [h1], ?_⟩
    intro j
    have h2 : ({ t with invocations := i } : TIntermediate).setInvocations j
        = (decide (i = j), { t with invocations := i }) := by
      unfold TIntermediate.setInvocations
      rw [if_pos (by simpa using hi)]
    rw [h1]
    simp [h2, eq_comm]
  · intro t buffer stride hset hstr
    have h1a : (t.setXfbBufferStride buffer stride).1 = true := by
      unfold TIntermediate.setXfbBufferStride
      rw [if_neg (by simp [hset])]
    have hb : ((t.setXfbBufferStride buffer stride).2.xfbBuffers buffer).stride
        = stride := by
      unfold TIntermediate.setXfbBufferStride
      rw [if_neg (by simp [hset])]
      simp
    refine ⟨h1a, hb, ?_⟩
    generalize hu : (t.setXfbBufferStride buffer stride).2 = u at hb
    intro j
    have h2 : u.setXfbBufferStride buffer j = (decide (stride = j), u) := by
      unfold TIntermediate.setXfbBufferStride
      simp only [hb]
      rw [if_pos hstr]
    rw [h2]
    simp [eq_comm]

/-- Witness for C3 at concrete inputs. -/
theorem c3_set_once_witness :
    (TIntermediate.init.setInvocations 4).2.invocations = 4 ∧
    ((TIntermediate.init.setXfbBufferStride 0 16).2.xfbBuffers 0).stride = 16 :=
  ⟨(c3_set_once.1 TIntermediate.init 4 rfl (by decide)).2.1,
   (c3_set_once.2.1 TIntermediate.init 0 16 rfl (by decide)).2.1⟩

/-- Counterexample for C3 as stated: supplying the sentinel value
`layoutNotSet` to the first `setInvocations` call makes the second call
with a different value return true and overwrite the stored value, where
the claim demands it return false and leave the value unchanged. -/
theorem c3_counterexample :
    (TIntermediate.init.setInvocations layoutNotSet).1 = true ∧
    ((TIntermediate.init.setInvocations layoutNotSet).2.setInvocations 4).1 = true ∧
    (((TIntermediate.init.setInvocations layoutNotSet).2.setInvocations 4).2).invocations
      = 4 := ⟨rfl, rfl, rfl⟩

/-- C4 (amended): for sizes of at least 2 (the stored size 1 left by the
constructor counts as "not yet claimed": `setLocalSize` only treats a
stored size greater than 1 as set), after `setLocalSize(dim, s)` has
returned true, a later call with a different size returns false and
changes nothing, and `getLocalSize(dim)` still returns `s`. -/
theorem c4_local_size (t : TIntermediate) (dim : Fin 3) (s s' : Int)
    (h1 : 1 < s) (h2 : s < 2 ^ 31)
    (hret : (t.setLocalSize dim s).1 = true) (hne : s' ≠ s) :
    (t.setLocalSize dim s).2.localSize dim = s ∧
    (t.setLocalSize dim s).2.setLocalSize dim s' = (false, (t.setLocalSize dim s).2) ∧
    (t.setLocalSize dim s).2.getLocalSize dim = s.toNat := by
  have hstore : (t.setLocalSize dim s).2.localSize dim = s := by
    unfold TIntermediate.setLocalSize at hret ⊢
    by_cases hgt : t.localSize dim > 1
    · rw [if_pos hgt] at hret ⊢
      simpa using (of_decide_eq_true hret).symm
    · rw [if_neg hgt]
      simp
  refine ⟨hstore, ?_, ?_⟩
  · generalize hu : (t.setLocalSize dim s).2 = u at hstore ⊢
    unfold TIntermediate.setLocalSize
    simp only [hstore]
    rw [if_pos (by omega)]
    simp [hne]
  · generalize hu : (t.setLocalSize dim s).2 = u at hstore ⊢
    unfold TIntermediate.getLocalSize
    rw [hstore, Int.emod_eq_of_lt (by omega) (by omega)]

/-- Witness for C4 at concrete inputs. -/
theorem c4_local_size_witness :
    (TIntermediate.init.setLocalSize 0 4).2.setLocalSize 0 8 =
      (false, (TIntermediate.init.setLocalSize 0 4).2) :=
  (c4_local_size TIntermediate.init 0 4 8 (by decide) (by decide) rfl
    (by decide)).2.1

/-- Counterexample for C4 as stated: `setLocalSize(0, 1)` returns true,
yet a later `setLocalSize(0, 8)` also returns true and overwrites the
stored size with 8, where the claim demands false and an unchanged
size. -/
theorem c4_counterexample :
    (TIntermediate.init.setLocalSize 0 1).1 = true ∧
    ((TIntermediate.init.setLocalSize 0 1).2.setLocalSize 0 8).1 = true ∧
    (((TIntermediate.init.setLocalSize 0 1).2.setLocalSize 0 8).2).localSize 0 = 8 := by
  refine ⟨rfl, rfl, by decide⟩

/-- Apply a sequence of `setShiftBindingForSet` calls, each given as a
`(res, shift, set)` triple, in order. -/
def applyShiftForSetCalls (t : TIntermediate) :
    List (Nat × Nat × Nat) → TIntermediate
  | [] => t
  | c :: rest =>
    applyShiftForSetCalls (t.setShiftBindingForSet c.1 c.2.1 c.2.2) rest

/-- The most recently registered nonzero shift among a call sequence for
a given `(res, set)` pair, if any (later calls win). -/
def lastNonzeroShift (res set : Nat) : List (Nat × Nat × Nat) → Option Nat
  | [] => none
  | c :: rest =>
    match lastNonzeroShift res set rest with
    | some v => some v
    | none => if c.1 = res ∧ c.2.2 = set ∧ c.2.1 ≠ 0 then some c.2.1 else none

/-- Helper for C10: one `setShiftBindingForSet` call's effect on the
stored map at an arbitrary `(res, set)` pair. -/
theorem setShiftBindingForSet_map (t : TIntermediate) (r sh st res set : Nat) :
    (t.setShiftBindingForSet r sh st).shiftBindingForSet res set =
      if r = res ∧ st = set ∧ sh ≠ 0 then some sh
      else t.shiftBindingForSet res set := by
  unfold TIntermediate.setShiftBindingForSet
  by_cases hz : sh = 0
  · rw [if_pos hz]
    rw [if_neg (by simp [hz])]
  · rw [if_neg hz]
    dsimp only
    have hmap : ∀ u : TIntermediate, u.shiftBindingForSet = (fun r' s' =>
        if r' = r ∧ s' = st then some sh else t.shiftBindingForSet r' s') →
        u.shiftBindingForSet res set =
          (if r = res ∧ st = set ∧ sh ≠ 0 then some sh
           else t.shiftBindingForSet res set) := by
      intro u hu
      rw [hu]
      dsimp only
      by_cases hc : res = r ∧ set = st
      · rw [if_pos hc, if_pos (by omega)]
      · rw [if_neg hc, if_neg (by omega)]
    cases hres : getResourceName r <;> exact hmap _ rfl

/-- Helper for C10: the stored map after a call sequence agrees with the
most recent nonzero registration. -/
theorem applyShiftForSetCalls_map (calls : List (Nat × Nat × Nat))
    (t : TIntermediate) (res set : Nat) :
    (applyShiftForSetCalls t calls).shiftBindingForSet res set =
      (match lastNonzeroShift res set calls with
       | some v => some v
       | none => t.shiftBindingForSet res set) := by
  induction calls generalizing t with
  | nil => rfl
  | cons c rest ih =>
    show (applyShiftForSetCalls (t.setShiftBindingForSet c.1 c.2.1 c.2.2) rest).shiftBindingForSet res set = _
    rw [ih, setShiftBindingForSet_map]
    cases h : lastNonzeroShift res set rest with
    | some v => simp [lastNonzeroShift, h]
    | none =>
      by_cases hc : (c.1 = res ∧ c.2.2 = set ∧ c.2.1 ≠ 0) <;>
        simp [lastNonzeroShift, h, hc]

/-- C10: `setShiftBindingForSet` with shift 0 is a complete no-op (the
state, including map and process log, is unchanged), so after any
sequence of such calls starting from the initial state,
`getShiftBindingForSet(res, set)` returns -1 unless a nonzero shift was
registered for exactly that pair, in which case it returns the most
recently registered nonzero shift; `setShiftBinding`, by contrast,
stores any shift including 0. -/
theorem c10_shift_binding_for_set :
    (∀ (t : TIntermediate) (res set : Nat),
      t.setShiftBindingForSet res 0 set = t) ∧
    (∀ (calls : List (Nat × Nat × Nat)) (res set : Nat),
      (applyShiftForSetCalls TIntermediate.init calls).getShiftBindingForSet res set =
        (match lastNonzeroShift res set calls with
         | none => -1
         | some shift => (shift : Int))) ∧
    (∀ (t : TIntermediate) (res shift : Nat),
      (t.setShiftBinding res shift).getShiftBinding res = shift) := by
  refine ⟨?_, ?_, ?_⟩
  · intro t res set
    unfold TIntermediate.setShiftBindingForSet
    rw [if_pos rfl]
  · intro calls res set
    unfold TIntermediate.getShiftBindingForSet
    rw [applyShiftForSetCalls_map]
    cases lastNonzeroShift res set calls <;> rfl
  · intro t res shift
    unfold TIntermediate.setShiftBinding TIntermediate.getShiftBinding
    dsimp only
    cases getResourceName res <;> simp

/-- Helper: the behavior of `getToken` on a stream whose next byte is
`#` (35), by cases on the following byte. -/
theorem getToken_hash_spec (D : List Nat) (n : Nat) (rest : List Nat)
    (h : D.drop n = 35 :: rest) :
    (rest = [] → TokenStream.getToken ⟨D, n⟩ = ⟨35, [], 0, 0, ⟨D, n + 1⟩⟩) ∧
    (∀ bs, rest = 35 :: bs →
      TokenStream.getToken ⟨D, n⟩ = ⟨PpAtomPaste, [], 0, 0, ⟨D, n + 2⟩⟩) ∧
    (∀ b bs, rest = b :: bs → b ≠ 35 →
      TokenStream.getToken ⟨D, n⟩ = ⟨35, [], 0, 0, ⟨D, n + 1⟩⟩) := by
  obtain ⟨hget, hdrop⟩ := getSubtoken_of_drop h
  refine ⟨?_, ?_, ?_⟩
  · intro hrest
    subst hrest
    have hlen : D.length ≤ n + 1 := List.drop_eq_nil_iff.mp hdrop
    have hcur : ¬((⟨D, n + 1⟩ : TokenStream).current < (⟨D, n + 1⟩ : TokenStream).data.length) := by
      show ¬(n + 1 < D.length)
      omega
    unfold TokenStream.getToken
    dsimp only
    rw [hget]
    dsimp only
    rw [if_neg (show ¬(((35 : Nat) : Int) = EndOfInput) by decide)]
    rw [if_neg (show ¬(SaveName ((35 : Nat) : Int) = true) by decide)]
    dsimp only
    rw [if_pos (show (((35 : Nat) : Int) = 35) by decide)]
    rw [if_neg hcur]
    rw [if_neg (show ¬(SaveValue ((35 : Nat) : Int) = true) by decide)]
    norm_num
  · intro bs hrest
    subst hrest
    obtain ⟨hget2, hdrop2⟩ := getSubtoken_of_drop hdrop
    have hlen : ¬(D.length ≤ n + 1) := by
      intro hle
      rw [List.drop_eq_nil_of_le hle] at hdrop
      exact List.noConfusion hdrop
    have hcur : ((⟨D, n + 1⟩ : TokenStream).current < (⟨D, n + 1⟩ : TokenStream).data.length) := by
      show n + 1 < D.length
      omega
    unfold TokenStream.getToken
    dsimp only
    rw [hget]
    dsimp only
    rw [if_neg (show ¬(((35 : Nat) : Int) = EndOfInput) by decide)]
    rw [if_neg (show ¬(SaveName ((35 : Nat) : Int) = true) by decide)]
    dsimp only
    rw [if_pos (show (((35 : Nat) : Int) = 35) by decide)]
    rw [if_pos hcur]
    rw [hget2]
    dsimp only
    rw [if_pos (show (((35 : Nat) : Int) = 35) by decide)]
    rw [if_neg (show ¬(SaveValue PpAtomPaste = true) by decide)]
  · intro b bs hrest hb
    subst hrest
    obtain ⟨hget2, hdrop2⟩ := getSubtoken_of_drop hdrop
    have hlen : ¬(D.length ≤ n + 1) := by
      intro hle
      rw [List.drop_eq_nil_of_le hle] at hdrop
      exact List.noConfusion hdrop
    have hcur : ((⟨D, n + 1⟩ : TokenStream).current < (⟨D, n + 1⟩ : TokenStream).data.length) := by
      show n + 1 < D.length
      omega
    have hun : (⟨D, n + 1 + 1⟩ : TokenStream).ungetSubtoken = ⟨D, n + 1⟩ := by
      unfold TokenStream.ungetSubtoken
      rw [if_pos (show 0 < (⟨D, n + 1 + 1⟩ : TokenStream).current from by
        show 0 < n + 1 + 1; omega)]
      rfl
    unfold TokenStream.getToken
    dsimp only
    rw [hget]
    dsimp only
    rw [if_neg (show ¬(((35 : Nat) : Int) = EndOfInput) by decide)]
    rw [if_neg (show ¬(SaveName ((35 : Nat) : Int) = true) by decide)]
    dsimp only
    rw [if_pos (show (((35 : Nat) : Int) = 35) by decide)]
    rw [if_pos hcur]
    rw [hget2]
    dsimp only
    rw [if_neg (show ¬(((b : Nat) : Int) = 35) from by exact_mod_cast hb)]
    rw [hun]
    rw [if_neg (show ¬(SaveValue ((35 : Nat) : Int) = true) by decide)]
    norm_num

/-- C5: when the atom just read is `#` (byte 35) and the read cursor is
not at the end of the buffer, `getToken` consumes an immediately
following `#` subtoken (no whitespace skipping) and returns
`PpAtomPaste` instead of `#`; any other following subtoken is pushed
back — the cursor moves back one — and `#` is returned unchanged; a `#`
that is the last byte of the stream is returned unchanged. -/
theorem c5_paste_rewrite (D : List Nat) (n : Nat) (rest : List Nat)
    (h : D.drop n = 35 :: rest) :
    (rest = [] → TokenStream.getToken ⟨D, n⟩ = ⟨35, [], 0, 0, ⟨D, n + 1⟩⟩) ∧
    (∀ bs, rest = 35 :: bs →
      TokenStream.getToken ⟨D, n⟩ = ⟨PpAtomPaste, [], 0, 0, ⟨D, n + 2⟩⟩) ∧
    (∀ b bs, rest = b :: bs → b ≠ 35 →
      TokenStream.getToken ⟨D, n⟩ = ⟨35, [], 0, 0, ⟨D, n + 1⟩⟩) :=
  getToken_hash_spec D n rest h

/-- Witness for C5 at the concrete two-byte stream `##`. -/
theorem c5_paste_rewrite_witness :
    TokenStream.getToken ⟨[35, 35], 0⟩ = ⟨PpAtomPaste, [], 0, 0, ⟨[35, 35], 2⟩⟩ :=
  (c5_paste_rewrite [35, 35] 0 [35] rfl).2.1 [] rfl

/-! ## Round-trip machinery: encoding of a recorded token -/

theorem natToBytes_length (k : Nat) : ∀ v : Nat, (natToBytes k v).length = k := by
  induction k with
  | zero => intro v; rfl
  | succ m ih => intro v; simpa [natToBytes] using ih (v / 256)

theorem natToBytes_lt (k : Nat) : ∀ v : Nat, ∀ b ∈ natToBytes k v, b < 256 := by
  induction k with
  | zero => intro v b hb; simp [natToBytes] at hb
  | succ m ih =>
    intro v b hb
    simp only [natToBytes, List.mem_cons] at hb
    rcases hb with hb | hb
    · omega
    · exact ih (v / 256) b hb

theorem bytesToNat_natToBytes (k : Nat) : ∀ v : Nat, v < 256 ^ k →
    bytesToNat (natToBytes k v) = v := by
  induction k with
  | zero =>
    intro v hv
    have : v = 0 := by simpa using hv
    simp [this, natToBytes, bytesToNat]
  | succ m ih =>
    intro v hv
    have hdiv : v / 256 < 256 ^ m := by
      rw [pow_succ'] at hv
      exact Nat.div_lt_of_lt_mul hv
    show v % 256 + 256 * bytesToNat (natToBytes m (v / 256)) = v
    rw [ih (v / 256) hdiv]
    omega

theorem takeWhile_ne_zero_eq {l : List Nat} (h : ∀ b ∈ l, 0 < b) :
    l.takeWhile (fun b => b ≠ 0) = l := by
  induction l with
  | nil => rfl
  | cons b l ih =>
    have hb := h b (List.mem_cons_self b l)
    simp only [List.takeWhile_cons]
    rw [if_pos (by simpa using Nat.pos_iff_ne_zero.mp hb)]
    rw [ih (fun x hx => h x (List.mem_cons_of_mem b hx))]

theorem map_mod_256_eq {l : List Nat} (h : ∀ b ∈ l, b < 256) :
    l.map (fun b => b % 256) = l := by
  induction l with
  | nil => rfl
  | cons b l ih =>
    have hb := h b (List.mem_cons_self b l)
    simp only [List.map_cons]
    rw [Nat.mod_eq_of_lt hb, ih (fun x hx => h x (List.mem_cons_of_mem b hx))]

theorem foldl_putSubtoken (bs : List Nat) : ∀ s : TokenStream,
    bs.foldl (fun (t : TokenStream) (b : Nat) => t.putSubtoken (b : Int)) s =
      ⟨s.data ++ bs.map (fun b => b % 256), s.current⟩ := by
  induction bs with
  | nil =>
    intro s
    show s = ⟨s.data ++ [], s.current⟩
    rw [List.append_nil]
  | cons b bs ih =>
    intro s
    show bs.foldl _ (s.putSubtoken (b : Int)) = _
    rw [ih]
    unfold TokenStream.putSubtoken
    have hbb : (((b : Nat) : Int) % 256).toNat = b % 256 := by omega
    simp [hbb]

/-- The exact byte encoding `putToken` appends for one token: the atom
byte, then (for name-saving atoms) the NUL-free prefix of the name
reduced to bytes followed by a NUL, then (for value-saving atoms) the
eight little-endian payload bytes. -/
def encodeToken (atom : Int) (tok : TPpToken) : List Nat :=
  (atom % 256).toNat ::
    ((if SaveName atom then
        (tok.name.takeWhile (fun b => b ≠ 0)).map (fun b => b % 256) ++ [0]
      else []) ++
     (if SaveValue atom then natToBytes 8 tok.i64val else []))

theorem putToken_eq (s : TokenStream) (atom : Int) (tok : TPpToken) :
    s.putToken atom tok = ⟨s.data ++ encodeToken atom tok, s.current⟩ := by
  have h0 : ∀ u : TokenStream, u.putSubtoken 0 = ⟨u.data ++ [0], u.current⟩ :=
    fun u => rfl
  have hatomb : s.putSubtoken atom = ⟨s.data ++ [(atom % 256).toNat], s.current⟩ :=
    rfl
  have hmap : (natToBytes 8 tok.i64val).map (fun b => b % 256) =
      natToBytes 8 tok.i64val :=
    map_mod_256_eq (natToBytes_lt 8 tok.i64val)
  unfold TokenStream.putToken encodeToken
  dsimp only
  by_cases hn : SaveName atom <;> by_cases hv : SaveValue atom
  · simp only [if_pos hn, if_pos hv]
    rw [hatomb, foldl_putSubtoken, h0, foldl_putSubtoken, hmap]
    simp [List.append_assoc]
  · simp only [if_pos hn, if_neg hv]
    rw [hatomb, foldl_putSubtoken, h0]
    simp [List.append_assoc]
  · simp only [if_neg hn, if_pos hv]
    rw [hatomb, foldl_putSubtoken, hmap]
    simp [List.append_assoc]
  · simp only [if_neg hn, if_neg hv]
    rw [hatomb]
    simp

/-- A token as actually recordable by `putToken` and replayable by
`getToken`: the atom is a byte value, a saved name is NUL-free, within
the `TPpToken` buffer bound, and byte-valued, a saved value fits in 64
bits, and fields not saved for this atom class are clear (as
`ppToken->clear()` leaves them on replay). -/
def WFToken (atom : Int) (tok : TPpToken) : Prop :=
  0 ≤ atom ∧ atom < 256 ∧
  (SaveName atom = true → (∀ b ∈ tok.name, 0 < b ∧ b < 256) ∧
    tok.name.length ≤ MaxTokenLength) ∧
  (SaveName atom = false → tok.name = []) ∧
  (SaveValue atom = true → tok.i64val < 2 ^ 64) ∧
  (SaveValue atom = false → tok.i64val = 0)

instance (atom : Int) (tok : TPpToken) : Decidable (WFToken atom tok) := by
  unfold WFToken
  infer_instance

theorem encodeToken_wf {atom : Int} {tok : TPpToken} (h : WFToken atom tok) :
    encodeToken atom tok = atom.toNat ::
      ((if SaveName atom then tok.name ++ [0] else []) ++
       (if SaveValue atom then natToBytes 8 tok.i64val else [])) := by
  obtain ⟨h0, h1, hn, _, _, _⟩ := h
  unfold encodeToken
  congr 1
  · omega
  · by_cases hsn : SaveName atom
    · rw [if_pos hsn, if_pos hsn,
        takeWhile_ne_zero_eq (fun b hb => ((hn hsn).1 b hb).1),
        map_mod_256_eq (fun b hb => ((hn hsn).1 b hb).2)]
    · rw [if_neg hsn, if_neg hsn]

theorem encodeToken_length_pos (atom : Int) (tok : TPpToken) :
    0 < (encodeToken atom tok).length := by
  unfold encodeToken
  simp

/-- The name-reading loop, on a stream holding the remaining name bytes
`nm` (the head of `nm` already fetched into `ch`) followed by a NUL and
then `rest`: it stores all of `nm`, reports no error, and consumes
through the NUL, as long as the name fits the length bound. -/
theorem readNameLoop_spec (nm : List Nat) :
    ∀ (acc D : List Nat) (n : Nat) (rest : List Nat) (ch : Int),
      (∀ b ∈ nm, 0 < b ∧ b < 256) →
      acc.length + nm.length ≤ MaxTokenLength →
      (nm = [] → ch = 0 ∧ D.drop n = rest) →
      (∀ c nm', nm = c :: nm' → ch = (c : Int) ∧ D.drop n = nm' ++ 0 :: rest) →
      TokenStream.readNameLoop ⟨D, n⟩ ch acc =
        (acc ++ nm, 0, ⟨D, n + nm.length⟩) := by
  induction nm with
  | nil =>
    intro acc D n rest ch hb hlen hnil hcons
    obtain ⟨hch, _⟩ := hnil rfl
    subst hch
    rw [TokenStream.readNameLoop]
    rw [if_neg (by simp)]
    simp
  | cons c nm' ih =>
    intro acc D n rest ch hb hlen hnil hcons
    obtain ⟨hch, hdrop⟩ := hcons c nm' rfl
    subst hch
    have hc := hb c (List.mem_cons_self c nm')
    have hcond : ((c : Nat) : Int) ≠ 0 ∧ ((c : Nat) : Int) ≠ EndOfInput := by
      simp only [EndOfInput]
      omega
    have hlt : n < D.length := by
      by_contra hle
      rw [List.drop_eq_nil_of_le (by omega)] at hdrop
      exact absurd hdrop (by simp)
    have hltP : ((⟨D, n⟩ : TokenStream)).current < ((⟨D, n⟩ : TokenStream)).data.length := hlt
    have hgd := List.drop_eq_getElem_cons hlt
    rw [hdrop] at hgd
    rw [TokenStream.readNameLoop]
    rw [if_pos hcond, if_pos (show acc.length < MaxTokenLength by
      simp only [List.length_cons] at hlen; omega), dif_pos hltP]
    simp only [List.get_eq_getElem, Int.toNat_natCast]
    cases nm' with
    | nil =>
      injection hgd with hg1 hg2
      have hstep := ih (acc ++ [c]) D (n + 1) rest ((0 : Nat) : Int)
        (by intro b hb'; simp at hb')
        (by simp only [List.length_append, List.length_cons] at hlen ⊢; simp; omega)
        (fun _ => ⟨by simp, hg2.symm⟩)
        (fun c0 nm0 habs => List.noConfusion habs)
      rw [← hg1]
      rw [hstep]
      simp
    | cons c' nm'' =>
      injection hgd with hg1 hg2
      have hstep := ih (acc ++ [c]) D (n + 1) rest ((c' : Nat) : Int)
        (fun b hb' => hb b (List.mem_cons_of_mem c hb'))
        (by simp only [List.length_append, List.length_cons] at hlen ⊢; simp; omega)
        (fun habs => List.noConfusion habs)
        (by
          intro c0 nm0 heq
          injection heq with he1 he2
          subst he1
          subst he2
          exact ⟨rfl, hg2.symm⟩)
      rw [← hg1]
      rw [hstep]
      simp only [Prod.mk.injEq, TokenStream.mk.injEq]
      refine ⟨by simp, trivial, trivial, by simp; omega⟩

/-- The name-reading loop when the name does not fit: with `c :: nm'`
still to store (head already in hand) overflowing the bound, the loop
stores exactly enough bytes to reach `MaxTokenLength`, reports one
"token too long" error, and breaks. -/
theorem readNameLoop_overflow (nm' : List Nat) :
    ∀ (acc D : List Nat) (n : Nat) (rest : List Nat) (c : Nat),
      (∀ b ∈ c :: nm', 0 < b ∧ b < 256) →
      MaxTokenLength < acc.length + (c :: nm').length →
      D.drop n = nm' ++ 0 :: rest →
      TokenStream.readNameLoop ⟨D, n⟩ (c : Int) acc =
        (acc ++ (c :: nm').take (MaxTokenLength - acc.length), 1,
          ⟨D, n + (MaxTokenLength - acc.length)⟩) := by
  induction nm' with
  | nil =>
    intro acc D n rest c hb hlen hdrop
    have hc := hb c (List.mem_cons_self c [])
    have hcond : ((c : Nat) : Int) ≠ 0 ∧ ((c : Nat) : Int) ≠ EndOfInput := by
      simp only [EndOfInput]
      omega
    have hz : MaxTokenLength - acc.length = 0 := by
      simp only [List.length_cons, List.length_nil] at hlen
      omega
    rw [TokenStream.readNameLoop]
    rw [if_pos hcond, if_neg (show ¬(acc.length < MaxTokenLength) by omega)]
    rw [hz]
    simp
  | cons c' nm'' ih =>
    intro acc D n rest c hb hlen hdrop
    have hc := hb c (List.mem_cons_self c (c' :: nm''))
    have hcond : ((c : Nat) : Int) ≠ 0 ∧ ((c : Nat) : Int) ≠ EndOfInput := by
      simp only [EndOfInput]
      omega
    by_cases hacc : acc.length < MaxTokenLength
    · have hlt : n < D.length := by
        by_contra hle
        rw [List.drop_eq_nil_of_le (by omega)] at hdrop
        exact absurd hdrop (by simp)
      have hltP : ((⟨D, n⟩ : TokenStream)).current < ((⟨D, n⟩ : TokenStream)).data.length := hlt
      have hgd := List.drop_eq_getElem_cons hlt
      rw [hdrop] at hgd
      injection hgd with hg1 hg2
      rw [TokenStream.readNameLoop]
      rw [if_pos hcond, if_pos hacc, dif_pos hltP]
      simp only [List.get_eq_getElem, Int.toNat_natCast]
      have hstep := ih (acc ++ [c]) D (n + 1) rest c'
        (fun b hb' => hb b (List.mem_cons_of_mem c hb'))
        (by simp only [List.length_append, List.length_cons] at hlen ⊢; simp; omega)
        hg2.symm
      rw [← hg1]
      rw [hstep]
      have harith : MaxTokenLength - acc.length = (MaxTokenLength - (acc ++ [c]).length) + 1 := by
        simp only [List.length_append, List.length_cons, List.length_nil]
        omega
      rw [harith]
      simp only [Prod.mk.injEq, TokenStream.mk.injEq, List.take_succ_cons]
      refine ⟨by simp, trivial, trivial, by simp; omega⟩
    · have hz : MaxTokenLength - acc.length = 0 := by omega
      rw [TokenStream.readNameLoop]
      rw [if_pos hcond, if_neg hacc]
      rw [hz]
      simp

/-- Reading a fixed number of value bytes laid out verbatim in the
stream returns exactly those bytes and advances past them. -/
theorem readValueBytes_spec (k : Nat) :
    ∀ (bs D : List Nat) (n : Nat) (rest : List Nat),
      bs.length = k → (∀ b ∈ bs, b < 256) → D.drop n = bs ++ rest →
      TokenStream.readValueBytes k ⟨D, n⟩ = (bs, ⟨D, n + k⟩) := by
  induction k with
  | zero =>
    intro bs D n rest hlen hb hdrop
    rw [List.length_eq_zero] at hlen
    subst hlen
    rfl
  | succ m ih =>
    intro bs D n rest hlen hb hdrop
    cases bs with
    | nil => simp at hlen
    | cons b bs' =>
      obtain ⟨hget, hdrop'⟩ := getSubtoken_of_drop (by simpa using hdrop)
      show TokenStream.readValueBytes (m + 1) ⟨D, n⟩ = _
      unfold TokenStream.readValueBytes
      dsimp only
      rw [hget]
      dsimp only
      rw [ih bs' D (n + 1) rest (by simpa using hlen)
        (fun x hx => hb x (List.mem_cons_of_mem b hx)) hdrop']
      have hbb : (((b : Nat) : Int) % 256).toNat = b := by
        have := hb b (List.mem_cons_self b bs')
        omega
      rw [hbb]
      simp only [Prod.mk.injEq, TokenStream.mk.injEq]
      refine ⟨trivial, trivial, by omega⟩

/-- The full name-reading phase (initial subtoken fetch plus loop) on a
stream laying out a fitting name followed by its NUL. -/
theorem readName_entry {D : List Nat} {n : Nat} {nm rest : List Nat}
    (hb : ∀ b ∈ nm, 0 < b ∧ b < 256) (hlen : nm.length ≤ MaxTokenLength)
    (hdrop : D.drop n = nm ++ 0 :: rest) :
    TokenStream.readNameLoop (TokenStream.getSubtoken ⟨D, n⟩).2
        (TokenStream.getSubtoken ⟨D, n⟩).1 [] =
      (nm, 0, ⟨D, n + (nm.length + 1)⟩) := by
  cases nm with
  | nil =>
    obtain ⟨hget, hdrop'⟩ := getSubtoken_of_drop (by simpa using hdrop)
    rw [hget]
    dsimp only
    rw [readNameLoop_spec [] [] D (n + 1) rest ((0 : Nat) : Int)
      (by intro b hb'; simp at hb') (by simp)
      (fun _ => ⟨by simp, hdrop'⟩) (fun c0 nm0 habs => List.noConfusion habs)]
    simp
  | cons c nm' =>
    obtain ⟨hget, hdrop'⟩ := getSubtoken_of_drop
      (show D.drop n = c :: (nm' ++ 0 :: rest) by simpa using hdrop)
    rw [hget]
    dsimp only
    rw [readNameLoop_spec (c :: nm') [] D (n + 1) rest ((c : Nat) : Int) hb
      (by simpa using hlen)
      (fun habs => List.noConfusion habs)
      (by
        intro c0 nm0 heq
        injection heq with he1 he2
        subst he1
        subst he2
        exact ⟨rfl, hdrop'⟩)]
    simp only [List.nil_append, Prod.mk.injEq, TokenStream.mk.injEq]
    refine ⟨trivial, trivial, trivial, by simp; omega⟩

/-- Every name-saving atom is a byte value distinct from `#`, from NUL
and from the end-of-input sentinel. -/
theorem SaveName_range {atom : Int} (h : SaveName atom = true) :
    0 ≤ atom ∧ atom < 256 ∧ atom ≠ 35 ∧ atom ≠ EndOfInput := by
  simp only [SaveName, Bool.or_eq_true, decide_eq_true_eq] at h
  rcases h with ((((((((h | h) | h) | h) | h) | h) | h) | h) | h) <;>
    subst h <;> decide

/-- The `getToken` at the end of the buffer reports `EndOfInput` without
moving the cursor. -/
theorem getToken_end {D : List Nat} {n : Nat} (h : D.drop n = []) :
    TokenStream.getToken ⟨D, n⟩ = ⟨EndOfInput, [], 0, 0, ⟨D, n⟩⟩ := by
  unfold TokenStream.getToken
  dsimp only
  rw [getSubtoken_of_drop_nil h]
  dsimp only
  rw [if_pos rfl]

/-- The `getToken` on a stream positioned at the encoding of one well-formed
token (followed by anything that does not complete a `##` pair when the
token is `#`) returns exactly that token's atom, name and value, reports
no error, and advances the cursor exactly past the encoding. -/
theorem getToken_token {D : List Nat} {n : Nat} (atom : Int) (tok : TPpToken)
    (rest : List Nat) (hwf : WFToken atom tok)
    (h : D.drop n = encodeToken atom tok ++ rest)
    (hpaste : atom = 35 → rest.head? ≠ some 35) :
    TokenStream.getToken ⟨D, n⟩ =
      ⟨atom, tok.name, tok.i64val, 0, ⟨D, n + (encodeToken atom tok).length⟩⟩ := by
  obtain ⟨h0, h1, hname, hname', hval, hval'⟩ := hwf
  by_cases hh : atom = 35
  · subst hh
    have hsn : SaveName 35 = false := by decide
    have hsv : SaveValue 35 = false := by decide
    have hnm : tok.name = [] := hname' hsn
    have hvv : tok.i64val = 0 := hval' hsv
    have henc : encodeToken 35 tok = [35] := by
      rw [encodeToken_wf ⟨h0, h1, hname, hname', hval, hval'⟩]
      simp [hsn, hsv]
    rw [henc] at h
    simp only [List.cons_append, List.nil_append] at h
    have hc := getToken_hash_spec D n rest h
    cases hr : rest with
    | nil =>
      rw [hr] at h hc
      rw [hc.1 rfl, henc, hnm, hvv]
      simp
    | cons b bs =>
      by_cases hb35 : b = 35
      · exfalso
        apply hpaste rfl
        rw [hr, hb35]
        rfl
      · rw [hc.2.2 b bs hr hb35, henc, hnm, hvv]
        simp
  · rw [encodeToken_wf ⟨h0, h1, hname, hname', hval, hval'⟩] at h
    simp only [List.cons_append] at h
    obtain ⟨hget, hd1⟩ := getSubtoken_of_drop h
    have hcast : ((atom.toNat : Nat) : Int) = atom := Int.toNat_of_nonneg h0
    have hEOI : ¬(atom = EndOfInput) := by
      simp only [EndOfInput]
      omega
    rw [encodeToken_wf ⟨h0, h1, hname, hname', hval, hval'⟩]
    unfold TokenStream.getToken
    dsimp only
    rw [hget]
    dsimp only
    rw [hcast]
    rw [if_neg hEOI]
    by_cases hsn : SaveName atom
    · rw [if_pos hsn]
      rw [if_pos hsn] at hd1
      have hd1' : D.drop (n + 1) = tok.name ++ 0 :: ((if SaveValue atom
          then natToBytes 8 tok.i64val else []) ++ rest) := by
        rw [hd1]
        simp [List.append_assoc]
      rw [readName_entry ((hname hsn).1) ((hname hsn).2) hd1']
      dsimp only
      rw [if_neg hh]
      have hd2 : D.drop (n + 1 + (tok.name.length + 1)) =
          (if SaveValue atom then natToBytes 8 tok.i64val else []) ++ rest := by
        have h9 : D.drop (n + 1) = (tok.name ++ [0]) ++
            ((if SaveValue atom then natToBytes 8 tok.i64val else []) ++ rest) := by
          rw [hd1]
          simp [List.append_assoc]
        have h10 := drop_append_of_drop h9
        simpa using h10
      by_cases hsv : SaveValue atom
      · rw [if_pos hsv]
        rw [if_pos hsv] at hd2
        rw [readValueBytes_spec 8 (natToBytes 8 tok.i64val) D _ rest
          (natToBytes_length 8 tok.i64val) (natToBytes_lt 8 tok.i64val) hd2]
        dsimp only
        rw [bytesToNat_natToBytes 8 tok.i64val
          (by rw [show (256 : Nat) ^ 8 = 2 ^ 64 by norm_num]; exact hval hsv)]
        simp only [if_pos hsn, if_pos hsv, GetResult.mk.injEq, TokenStream.mk.injEq]
        refine ⟨trivial, trivial, trivial, trivial, trivial, by
          simp [natToBytes_length]; omega⟩
      · rw [if_neg hsv]
        rw [hval' (by simpa using hsv)]
        simp only [if_pos hsn, if_neg hsv, GetResult.mk.injEq, TokenStream.mk.injEq]
        refine ⟨trivial, trivial, trivial, trivial, trivial, by simp; omega⟩
    · rw [if_neg hsn]
      rw [if_neg hsn] at hd1
      simp only [List.nil_append] at hd1
      dsimp only
      rw [if_neg hh]
      by_cases hsv : SaveValue atom
      · rw [if_pos hsv]
        rw [if_pos hsv] at hd1
        rw [readValueBytes_spec 8 (natToBytes 8 tok.i64val) D _ rest
          (natToBytes_length 8 tok.i64val) (natToBytes_lt 8 tok.i64val) hd1]
        dsimp only
        rw [bytesToNat_natToBytes 8 tok.i64val
          (by rw [show (256 : Nat) ^ 8 = 2 ^ 64 by norm_num]; exact hval hsv)]
        rw [hname' (by simpa using hsn)]
        simp only [if_neg hsn, if_pos hsv, GetResult.mk.injEq, TokenStream.mk.injEq]
        refine ⟨trivial, trivial, trivial, trivial, trivial, by
          simp [natToBytes_length]⟩
      · rw [if_neg hsv]
        rw [hval' (by simpa using hsv), hname' (by simpa using hsn)]
        simp only [if_neg hsn, if_neg hsv, GetResult.mk.injEq, TokenStream.mk.injEq]
        refine ⟨trivial, trivial, trivial, trivial, trivial, by simp⟩

/-! ## Recording and replaying a whole token sequence -/

/-- The byte buffer produced by recording a sequence of tokens. -/
def encodeStream : List (Int × TPpToken) → List Nat
  | [] => []
  | t :: ts => encodeToken t.1 t.2 ++ encodeStream ts

/-- Record a token sequence into a fresh stream with `putToken`. -/
def record (ts : List (Int × TPpToken)) : TokenStream :=
  ts.foldl (fun s t => s.putToken t.1 t.2) ⟨[], 0⟩

theorem foldl_putToken (ts : List (Int × TPpToken)) : ∀ s : TokenStream,
    ts.foldl (fun s t => s.putToken t.1 t.2) s =
      ⟨s.data ++ encodeStream ts, s.current⟩ := by
  induction ts with
  | nil =>
    intro s
    show s = ⟨s.data ++ [], s.current⟩
    rw [List.append_nil]
  | cons t ts ih =>
    intro s
    show ts.foldl _ (s.putToken t.1 t.2) = _
    rw [ih, putToken_eq]
    show (⟨(s.data ++ encodeToken t.1 t.2) ++ encodeStream ts, s.current⟩ : TokenStream) = _
    rw [List.append_assoc]
    rfl

theorem record_eq (ts : List (Int × TPpToken)) :
    record ts = ⟨encodeStream ts, 0⟩ := by
  unfold record
  rw [foldl_putToken]
  rfl

/-- No recorded `#` token is immediately followed by another `#` token
(such a pair is exactly what replay re-interprets as `PpAtomPaste`). -/
def PasteFree (ts : List (Int × TPpToken)) : Prop :=
  List.Chain' (fun a b => a.1 = 35 → b.1 ≠ 35) ts

instance (ts : List (Int × TPpToken)) : Decidable (PasteFree ts) :=
  inferInstanceAs (Decidable (List.Chain' _ ts))

/-- Replay a stream through repeated `getToken` calls until `EndOfInput`,
collecting the (atom, name, value) triples; the fuel argument is only a
termination bound, chosen at the entry point to exceed any possible
number of remaining tokens. -/
def replayAux : Nat → TokenStream → List (Int × List Nat × Nat)
  | 0, _ => []
  | fuel + 1, s =>
    let r := s.getToken
    if r.atom = EndOfInput then []
    else (r.atom, r.name, r.value) :: replayAux fuel r.stream

/-- The full replay of a stream from its current cursor. -/
def replayTriples (s : TokenStream) : List (Int × List Nat × Nat) :=
  replayAux (s.data.length + 1 - s.current) s

theorem encodeStream_length (ts : List (Int × TPpToken)) :
    ts.length ≤ (encodeStream ts).length := by
  induction ts with
  | nil => simp [encodeStream]
  | cons t ts ih =>
    show ts.length + 1 ≤ (encodeToken t.1 t.2 ++ encodeStream ts).length
    have := encodeToken_length_pos t.1 t.2
    simp only [List.length_append]
    omega

theorem replayAux_spec (ts : List (Int × TPpToken)) :
    ∀ (fuel : Nat) (D : List Nat) (n : Nat),
      (∀ t ∈ ts, WFToken t.1 t.2) → PasteFree ts → ts.length < fuel →
      D.drop n = encodeStream ts →
      replayAux fuel ⟨D, n⟩ = ts.map (fun t => (t.1, t.2.name, t.2.i64val)) := by
  induction ts with
  | nil =>
    intro fuel D n _ _ hfuel hdrop
    cases fuel with
    | zero => omega
    | succ f =>
      show (if (TokenStream.getToken ⟨D, n⟩).atom = EndOfInput then []
        else _) = _
      rw [getToken_end hdrop]
      simp
  | cons t ts' ih =>
    intro fuel D n hwf hpf hfuel hdrop
    cases fuel with
    | zero => simp at hfuel
    | succ f =>
      have hwt : WFToken t.1 t.2 := hwf t (List.mem_cons_self t ts')
      have hpaste : t.1 = 35 → (encodeStream ts').head? ≠ some 35 := by
        intro h35 habs
        cases ts' with
        | nil => simp [encodeStream] at habs
        | cons t' ts'' =>
          have hwt' : WFToken t'.1 t'.2 := hwf t' (by simp)
          have hhd : (encodeStream (t' :: ts'')).head? =
              some ((t'.1 % 256).toNat) := by
            show ((encodeToken t'.1 t'.2 ++ encodeStream ts'').head?) = _
            unfold encodeToken
            simp
          rw [hhd] at habs
          injection habs with habs
          have hne : t'.1 ≠ 35 := by
            have := List.chain'_cons'.mp hpf
            exact this.1 t' rfl h35
          obtain ⟨hw0, hw1, _⟩ := hwt'
          omega
      have hstep := getToken_token t.1 t.2 (encodeStream ts') hwt
        (by rw [hdrop]; rfl) hpaste
      show (if (TokenStream.getToken ⟨D, n⟩).atom = EndOfInput then []
        else ((TokenStream.getToken ⟨D, n⟩).atom,
          (TokenStream.getToken ⟨D, n⟩).name,
          (TokenStream.getToken ⟨D, n⟩).value) ::
            replayAux f (TokenStream.getToken ⟨D, n⟩).stream) = _
      rw [hstep]
      dsimp only
      rw [if_neg (by
        obtain ⟨hw0, _⟩ := hwt
        simp only [EndOfInput]
        omega)]
      rw [ih f D (n + (encodeToken t.1 t.2).length)
        (fun x hx => hwf x (List.mem_cons_of_mem t hx))
        ((List.chain'_cons'.mp hpf).2)
        (by simp only [List.length_cons] at hfuel; omega)
        (drop_append_of_drop (by rw [hdrop]; rfl))]
      rfl

/-- C1 (amended): for any sequence of well-formed tokens (byte-valued
atoms; NUL-free, bound-respecting names; 64-bit values; unsaved fields
clear) in which no `#` token is immediately followed by another `#`
token, replaying the recorded stream via `getToken` yields the identical
sequence of (atom, name, value) triples; replaying again after `reset()`
— from any stream state over the same buffer — yields the same sequence;
and `getToken` never mutates the buffer.  (A recorded `#` `#` pair is
instead replayed as one `PpAtomPaste` token.) -/
theorem c1_roundtrip (ts : List (Int × TPpToken))
    (hwf : ∀ t ∈ ts, WFToken t.1 t.2) (hpf : PasteFree ts) :
    replayTriples (record ts) = ts.map (fun t => (t.1, t.2.name, t.2.i64val)) ∧
    (∀ s : TokenStream, s.data = (record ts).data →
      replayTriples s.reset = ts.map (fun t => (t.1, t.2.name, t.2.i64val))) ∧
    (∀ s : TokenStream, (s.getToken).stream.data = s.data) := by
  have hrep : replayTriples ⟨encodeStream ts, 0⟩ =
      ts.map (fun t => (t.1, t.2.name, t.2.i64val)) := by
    have hspec := replayAux_spec ts ((encodeStream ts).length + 1)
      (encodeStream ts) 0 hwf hpf
      (by have := encodeStream_length ts; omega) rfl
    unfold replayTriples
    dsimp only
    rw [Nat.sub_zero]
    exact hspec
  refine ⟨?_, ?_, getToken_data⟩
  · rw [record_eq]
    exact hrep
  · intro s hdata
    rw [record_eq] at hdata
    show replayTriples ⟨s.data, 0⟩ = _
    rw [hdata]
    exact hrep

/-- Witness for C1 at a concrete one-token sequence (an integer literal
with name bytes "A" and value 7). -/
theorem c1_roundtrip_witness :
    replayTriples (record [((PpAtomConstInt : Int), ⟨[65], 7⟩)]) =
      [((PpAtomConstInt : Int), ([65] : List Nat), (7 : Nat))] := by
  have h := (c1_roundtrip [((PpAtomConstInt : Int), ⟨[65], 7⟩)]
    (by decide) (by simp [PasteFree])).1
  simpa using h

/-- Counterexample for C1 as stated: recording two consecutive `#`
tokens and replaying yields a single `PpAtomPaste` token, not the
identical two-token sequence. -/
theorem c1_counterexample :
    replayTriples (record [((35 : Int), ⟨[], 0⟩), ((35 : Int), ⟨[], 0⟩)]) =
      [(PpAtomPaste, [], 0)] ∧
    replayTriples (record [((35 : Int), ⟨[], 0⟩), ((35 : Int), ⟨[], 0⟩)]) ≠
      [((35 : Int), ([] : List Nat), (0 : Nat)),
       ((35 : Int), ([] : List Nat), (0 : Nat))] := by
  constructor <;> decide

/-- C7 (amended): for a recorded token whose atom saves a name and whose
stored name is strictly longer than `MaxTokenLength`, `getToken` reports
exactly one "token too long" diagnostic, stores exactly the first
`MaxTokenLength` name characters into the output token, and still
returns the atom — the error is non-fatal.  (A name of length exactly
`MaxTokenLength` is read in full with no error.) -/
theorem c7_overlong_name (atom : Int) (nm rest D : List Nat) (n : Nat)
    (hatom : SaveName atom = true)
    (hb : ∀ b ∈ nm, 0 < b ∧ b < 256)
    (hlen : MaxTokenLength < nm.length)
    (h : D.drop n = atom.toNat :: (nm ++ 0 :: rest)) :
    (TokenStream.getToken ⟨D, n⟩).atom = atom ∧
    (TokenStream.getToken ⟨D, n⟩).name = nm.take MaxTokenLength ∧
    (TokenStream.getToken ⟨D, n⟩).errors = 1 := by
  obtain ⟨h0, h1, hne35, hneEOI⟩ := SaveName_range hatom
  obtain ⟨hget, hd1⟩ := getSubtoken_of_drop h
  have hcast : ((atom.toNat : Nat) : Int) = atom := Int.toNat_of_nonneg h0
  cases nm with
  | nil => simp [MaxTokenLength] at hlen
  | cons c nm' =>
    obtain ⟨hget2, hd2⟩ := getSubtoken_of_drop
      (show D.drop (n + 1) = c :: (nm' ++ 0 :: rest) by simpa using hd1)
    have hloop := readNameLoop_overflow nm' [] D (n + 1 + 1) rest c hb
      (by simpa using hlen) hd2
    simp only [List.length_nil, Nat.sub_zero, List.nil_append] at hloop
    unfold TokenStream.getToken
    dsimp only
    rw [hget]
    dsimp only
    rw [hcast]
    rw [if_neg hneEOI, if_pos hatom, hget2]
    dsimp only
    rw [hloop]
    dsimp only
    rw [if_neg hne35]
    by_cases hsv : SaveValue atom
    · rw [if_pos hsv]
      exact ⟨rfl, rfl, rfl⟩
    · rw [if_neg hsv]
      exact ⟨rfl, rfl, rfl⟩

/-- Witness for C7 at a concrete identifier token whose name has
`MaxTokenLength + 1` characters. -/
theorem c7_overlong_name_witness :
    (TokenStream.getToken ⟨PpAtomIdentifier.toNat ::
        (List.replicate (MaxTokenLength + 1) 65 ++ 0 :: []), 0⟩).errors = 1 :=
  (c7_overlong_name PpAtomIdentifier (List.replicate (MaxTokenLength + 1) 65)
    [] _ 0 (by decide)
    (by intro b hb; rw [List.mem_replicate] at hb; omega)
    (by simp) rfl).2.2

/-- Counterexample for C7 as stated: a stored name of length exactly
`MaxTokenLength` — which is "at least MaxTokenLength characters long" —
is replayed in full with zero error diagnostics, not one. -/
theorem c7_counterexample :
    MaxTokenLength ≤ (List.replicate MaxTokenLength 65).length ∧
    (TokenStream.getToken ⟨encodeToken PpAtomIdentifier
        ⟨List.replicate MaxTokenLength 65, 0⟩, 0⟩).errors = 0 ∧
    (TokenStream.getToken ⟨encodeToken PpAtomIdentifier
        ⟨List.replicate MaxTokenLength 65, 0⟩, 0⟩).name =
      List.replicate MaxTokenLength 65 := by
  have hwf : WFToken PpAtomIdentifier ⟨List.replicate MaxTokenLength 65, 0⟩ := by
    refine ⟨by decide, by decide, fun _ => ⟨?_, by simp⟩, ?_, ?_, fun _ => rfl⟩
    · intro b hb
      rw [List.mem_replicate] at hb
      omega
    · intro hfalse
      rw [show SaveName PpAtomIdentifier = true from by decide] at hfalse
      exact Bool.noConfusion hfalse
    · intro hsv
      exact absurd hsv (by decide)
  have h := getToken_token
    (D := encodeToken PpAtomIdentifier ⟨List.replicate MaxTokenLength 65, 0⟩)
    (n := 0) PpAtomIdentifier
    ⟨List.replicate MaxTokenLength 65, 0⟩ [] hwf
    (by simp) (fun habs => absurd habs (by decide))
  rw [h]
  exact ⟨by simp, rfl, rfl⟩
